import Mathlib

/-!
Verification of the forester decision-tree library.

The development shallowly embeds the Rust sources: slices become lists,
`f64` split features become a four-constructor model (`Fl`) with explicit
NaN and infinities and exact rational payloads, fallible operations
(comparator panics) return `Except`, and the process-global as well as the
splitter-owned random generators become explicit streams of draws.
Definitions carry the names of the source items they embed; parts of the
crate that are referenced but not present among the sources (the in-place
partition primitive, the best-of-k splitter, the tree and ensemble
builders, the categorical counter) are modelled from the specification and
marked as such in their doc comments.
-/

namespace Forester
/-- Model of an IEEE `f64` as used for split features: NaN, the two
infinities, and finite values carried exactly as rationals. -/
inductive Fl where
  | nan : Fl
  | ninf : Fl
  | val : ℚ → Fl
  | inf : Fl
deriving DecidableEq, Repr

/-- The `<=` comparison of Rust `PartialOrd` on `f64`: any comparison
involving NaN is `false`; the infinities compare as usual. -/
def fle : Fl → Fl → Bool
  | Fl.nan, _ => false
  | _, Fl.nan => false
  | Fl.ninf, _ => true
  | Fl.val _, Fl.ninf => false
  | Fl.val a, Fl.val b => decide (a ≤ b)
  | Fl.val _, Fl.inf => true
  | Fl.inf, Fl.inf => true
  | Fl.inf, Fl.val _ => false
  | Fl.inf, Fl.ninf => false

/-- The `<` comparison of Rust `PartialOrd` on `f64`: any comparison
involving NaN is `false`. -/
def flt : Fl → Fl → Bool
  | Fl.nan, _ => false
  | _, Fl.nan => false
  | Fl.ninf, Fl.ninf => false
  | Fl.ninf, Fl.val _ => true
  | Fl.ninf, Fl.inf => true
  | Fl.val _, Fl.ninf => false
  | Fl.val a, Fl.val b => decide (a < b)
  | Fl.val _, Fl.inf => true
  | Fl.inf, _ => false

/-- Modelled from the spec: the in-place partition primitive
(`array_ops::Partition`, spec section 4.A), whose implementation is not
among the sources. `partition(seq, pred)` reorders `seq` in place so that
every element at index `< i` satisfies `pred` and every element at index
`≥ i` does not, and returns `i`; order within each side is unspecified and
the multiset of elements is unchanged. We model one admissible reordering:
the elements satisfying the predicate first, in order. -/
def partitionPrim {α : Type} (p : α → Bool) (l : List α) : List α × Nat :=
  (l.filter p ++ l.filter (fun a => !(p a)), (l.filter p).length)

/-- `DataSet::partition_data` for slices (forester-crate/src/data.rs):
partition by `sample_as_split_feature(&split.theta) <= split.threshold`,
then `split_at_mut(i)`. The function is total: it returns an ordinary pair
of sub-slices (there is no error path in the source). -/
def partition_data {S Θ : Type} (feat : S → Θ → Fl) (l : List S) (theta : Θ)
    (tau : Fl) : List S × List S :=
  let pr := partitionPrim (fun s => fle (feat s theta) tau) l
  (pr.1.take pr.2, pr.1.drop pr.2)

/-- Insert a sample into a feature-sorted list (helper for the model of
`sort_unstable_by`). -/
def insertByFeature {S Θ : Type} (feat : S → Θ → Fl) (theta : Θ) (s : S) :
    List S → List S
  | [] => [s]
  | t :: ts =>
    if fle (feat s theta) (feat t theta) then s :: t :: ts
    else t :: insertByFeature feat theta s ts

/-- Sort a list of samples by a split feature (helper for `sort_data`). -/
def sortByFeature {S Θ : Type} (feat : S → Θ → Fl) (theta : Θ) :
    List S → List S
  | [] => []
  | s :: ts => insertByFeature feat theta s (sortByFeature feat theta ts)

/-- `DataSet::sort_data` for slices (forester-crate/src/data.rs):
`sort_unstable_by` with a comparator that panics when `partial_cmp`
returns `None`. `partial_cmp` on `f64` is `None` exactly when one operand
is NaN, and a comparison sort on two or more elements compares every
element at least once, so the call panics exactly when the slice has at
least two samples and some sample has a NaN feature. The panic is modelled
as an `Except.error` carrying the source's panic message. -/
def sort_data {S Θ : Type} (feat : S → Θ → Fl) (l : List S) (theta : Θ) :
    Except String (List S) :=
  if 2 ≤ l.length ∧ (l.any fun s => feat s theta == Fl.nan) = true then
    Except.error "Could not compare samples (this is likely caused by a NaN feature"
  else
    Except.ok (sortByFeature feat theta l)

/-- `feature_bounds` from examples/extra_trees_classifier.rs: fold over the
samples starting from `(INFINITY, NEG_INFINITY)`, with
`if x < min then x else min` and `if x > max then x else max`. -/
def feature_bounds {S Θ : Type} (feat : S → Θ → Fl) (l : List S) (theta : Θ) :
    Fl × Fl :=
  l.foldl
    (fun mm s =>
      (if flt (feat s theta) mm.1 then feat s theta else mm.1,
       if flt mm.2 (feat s theta) then feat s theta else mm.2))
    (Fl.inf, Fl.ninf)

/-- `feature_bounds` from examples/profile2.rs, over `u8` features
(modelled as naturals bounded by 255): the same fold starting from
`(255, 0)`. -/
def feature_bounds_u8 {S Θ : Type} (feat : S → Θ → ℕ) (l : List S) (theta : Θ) :
    ℕ × ℕ :=
  l.foldl
    (fun mm s =>
      (if feat s theta < mm.1 then feat s theta else mm.1,
       if mm.2 < feat s theta then feat s theta else mm.2))
    (255, 0)

/-- The configuration builder `ExtraTreesRegressor` of src/api.rs. -/
structure ExtraTreesRegressor where
  n_estimators : ℕ
  n_splits : ℕ
  min_samples_split : ℕ
deriving DecidableEq, Repr

/-- `ExtraTreesRegressor::new` (src/api.rs): 10 estimators, 1 split
candidate, `min_samples_split = 1`. -/
def ExtraTreesRegressor.new : ExtraTreesRegressor :=
  { n_estimators := 10, n_splits := 1, min_samples_split := 1 }

/-- The `n_estimators` builder setter of src/api.rs. -/
def set_n_estimators (b : ExtraTreesRegressor) (n : ℕ) : ExtraTreesRegressor :=
  { b with n_estimators := n }

/-- The `n_splits` builder setter of src/api.rs. -/
def set_n_splits (b : ExtraTreesRegressor) (n : ℕ) : ExtraTreesRegressor :=
  { b with n_splits := n }

/-- The `min_samples_split` builder setter of src/api.rs. -/
def set_min_samples_split (b : ExtraTreesRegressor) (n : ℕ) : ExtraTreesRegressor :=
  { b with min_samples_split := n }

/-- The running-minimum step used by both `feature_bounds` folds:
`if x < m then x else m`. -/
def qmin {α : Type} [LinearOrder α] (m x : α) : α := if x < m then x else m

/-- The running-maximum step used by both `feature_bounds` folds:
`if m < x then x else m`. -/
def qmax {α : Type} [LinearOrder α] (m x : α) : α := if m < x then x else m

/-- The three classes of the rgb classification example. -/
inductive Classes where
  | Red
  | Green
  | Blue
deriving DecidableEq, Repr

instance : Fintype Classes where
  elems := {Classes.Red, Classes.Green, Classes.Blue}
  complete := by intro x; cases x <;> decide

/-- Modelled from the spec: the count of one class in the categorical
counter `ClassCounts` of the examples' `common` module (not among the
sources; spec section 4.B). The counter built by summing one count per
sample maps each class to the number of samples of that class. -/
def countOf (l : List Classes) (c : Classes) : ℕ := l.count c

/-- Modelled from the spec: the counter's `total`, the sum of all class
counts. -/
def total (l : List Classes) : ℕ := ∑ c : Classes, countOf l c

/-- Modelled from the spec: `probability(c) = count(c) / total`, which is 0
when the total is 0 (rational division by zero is 0). -/
def probability (l : List Classes) (c : Classes) : ℚ :=
  (countOf l c : ℚ) / (total l : ℚ)

/-- `split_criterion` from examples/extra_trees_classifier.rs: the Gini
impurity computed from the probabilities of the three classes. -/
def split_criterion (l : List Classes) : ℚ :=
  probability l Classes.Red * (1 - probability l Classes.Red) +
    probability l Classes.Green * (1 - probability l Classes.Green) +
    probability l Classes.Blue * (1 - probability l Classes.Blue)

/-- Modelled from the spec: class counts of the digit counter of
examples/profile2.rs (its `common` module is not among the sources);
classes are the digits 0 through 9. -/
def countOfD (l : List ℕ) (c : ℕ) : ℕ := l.count c

/-- Modelled from the spec: the digit counter's total. -/
def totalD (l : List ℕ) : ℕ := ((List.range 10).map (fun c => countOfD l c)).sum

/-- Modelled from the spec: the digit counter's `probability`. -/
def probabilityD (l : List ℕ) (c : ℕ) : ℚ :=
  (countOfD l c : ℚ) / (totalD l : ℚ)

/-- `split_criterion` from examples/profile2.rs: map `probability` over the
digits 0..10, then `p * (1 - p)`, then sum. -/
def split_criterion_digits (l : List ℕ) : ℚ :=
  ((List.range 10).map (fun c => probabilityD l c * (1 - probabilityD l c))).sum

/-- Modelled from the spec: the sample-weighted post-split score (spec
section 4.C): partition the subset by the candidate predicate and form
`(N_L * s_L + N_R * s_R) / N`. -/
def post_split_score {S : Type} (crit : List S → ℚ) (p : S → Bool) (l : List S) : ℚ :=
  (((l.filter p).length : ℚ) * crit (l.filter p) +
      ((l.filter (fun s => !(p s))).length : ℚ) * crit (l.filter (fun s => !(p s)))) /
    (l.length : ℚ)

/-- One step of the best-candidate fold: keep the strictly smaller score,
the earlier candidate winning ties. -/
def best_step {S : Type} (acc : Option ((S → Bool) × ℚ)) (c : (S → Bool) × ℚ) :
    Option ((S → Bool) × ℚ) :=
  match acc with
  | none => some c
  | some b => if c.2 < b.2 then some c else some b

/-- Modelled from the spec: `BestRandomSplit` (spec section 4.F), whose
implementation is not among the sources. The candidate splits produced by
the trials (a trial whose feature is constant on the subset contributes no
candidate) are scored by the sample-weighted post-split score; the earliest
best candidate is returned, and only if its score is strictly below the
subset's pre-split score; otherwise there is no viable split. -/
def best_random_split {S : Type} (crit : List S → ℚ) (l : List S)
    (cands : List (S → Bool)) : Option ((S → Bool) × ℚ) :=
  match (cands.map (fun p => (p, post_split_score crit p l))).foldl best_step none with
  | none => none
  | some b => if b.2 < crit l then some b else none

/-- A sample of the two-feature classification example
(extra_trees_classifier.rs): two f64 data columns, modelled as rationals
(the NaN-free case suffices here). -/
structure CSample where
  x0 : ℚ
  x1 : ℚ
deriving DecidableEq, Repr

/-- `sample_as_split_feature` of extra_trees_classifier.rs:
`self.x[*theta]` on the two-column sample. -/
def csample_feature (s : CSample) (theta : ℕ) : ℚ :=
  if theta = 0 then s.x0 else s.x1

/-- `gen_split_feature` of extra_trees_classifier.rs:
`thread_rng().gen_range(0, 2)` — a draw from the process-global thread
generator, modelled as the stream `g`. The draw does not touch the
splitter's own generator. -/
def gen_split_feature (g : ℕ → ℕ) : ℕ := g 0 % 2

/-- Modelled from the spec: one best-of-1 splitter trial as run during
fitting (spec section 4.F; the tree-builder sources are absent). The split
feature theta is drawn by `gen_split_feature` from the global stream `g`,
the feature bounds are computed over the subset, and the threshold is the
splitter generator's draw `u 0`, clamped into `[lo, hi)`. -/
def propose_split (data : List CSample) (g : ℕ → ℕ) (u : ℕ → ℚ) : ℕ × ℚ :=
  (gen_split_feature g,
    match data.map (fun s => csample_feature s (gen_split_feature g)) with
    | [] => 0
    | x :: t =>
      if (t.foldl qmin x) ≤ u 0 ∧ u 0 < (t.foldl qmax x) then u 0
      else t.foldl qmin x)

/-- A regression sample of the api.rs test: a one-dimensional integer
feature and an f64 target, modelled as a pair `(x, y)` of rationals. -/
abbrev RSample := ℚ × ℚ

/-- Sum of the targets of a subset. -/
def sumY (l : List RSample) : ℚ := (l.map Prod.snd).sum

/-- Sum of the squared targets of a subset. -/
def sumYsq (l : List RSample) : ℚ := (l.map (fun s => s.2 ^ 2)).sum

/-- Modelled from the spec: `ConstMean`, the regression leaf predictor
(mean target of the training subset); its source is not among the
files. -/
def meanY (l : List RSample) : ℚ := sumY l / (l.length : ℚ)

/-- Modelled from the spec: `VarCriterion` (spec section 4.C), the
population variance of the subset's targets; its source is not among the
files. -/
def var_criterion (l : List RSample) : ℚ :=
  (l.map (fun s => (s.2 - meanY l) ^ 2)).sum / (l.length : ℚ)

/-- Minimum feature value of a subset (the `lo` of `feature_bounds` for
the one-dimensional regression data). -/
def minX (l : List RSample) : ℚ :=
  match l with
  | [] => 0
  | s :: t => t.foldl (fun m r => qmin m r.1) s.1

/-- Maximum feature value of a subset (the `hi` of `feature_bounds` for
the one-dimensional regression data). -/
def maxX (l : List RSample) : ℚ :=
  match l with
  | [] => 0
  | s :: t => t.foldl (fun m r => qmax m r.1) s.1

/-- Modelled from the spec: the threshold draw of a splitter trial, any
value in `[lo, hi)`; a stream value outside the interval is clamped to
`lo`, so that quantifying over all streams ranges over exactly the
admissible thresholds (for the discrete split-between rule, `lo` itself is
admissible and separates the minimum). -/
def pick_threshold (lo hi u : ℚ) : ℚ := if lo ≤ u ∧ u < hi then u else lo

/-- The split predicate `sample_as_split_feature(theta) <= tau` of the
one-dimensional regression data. -/
def xle (tau : ℚ) (s : RSample) : Bool := decide (s.1 ≤ tau)

/-- A regression tree: the node arena of the source flattened into an
inductive tree (children are stored behind the parent, so the arena and
the inductive view are interchangeable). -/

inductive RTree where
  | leaf : ℚ → RTree
  | node : ℚ → RTree → RTree → RTree
deriving DecidableEq, Repr

/-- Modelled from the spec: the recursive tree grower (spec section 4.G)
configured as in the api.rs regression test — `min_samples_split = 1`, no
maximum depth, and a best-of-1 random splitter with the variance
criterion; the tree-builder source is not among the files. `u` is the
splitter generator's stream of threshold draws and `c` the index of the
next draw; the one-dimensional data makes the theta draw (`gen_range(0,
1)`) constantly 0, so only thresholds consume randomness. -/
def grow : ℕ → List RSample → (ℕ → ℚ) → ℕ → RTree × ℕ
  | 0, l, _, c => (RTree.leaf (meanY l), c)
  | fuel + 1, l, u, c =>
    if l.length < 1 then (RTree.leaf (meanY l), c)
    else if var_criterion l = 0 then (RTree.leaf (meanY l), c)
    else if minX l = maxX l then (RTree.leaf (meanY l), c)
    else
      if post_split_score var_criterion
          (xle (pick_threshold (minX l) (maxX l) (u c))) l < var_criterion l then
        let L := l.filter (xle (pick_threshold (minX l) (maxX l) (u c)))
        let R := l.filter (fun s => !(xle (pick_threshold (minX l) (maxX l) (u c)) s))
        let tl := grow fuel L u (c + 1)
        let tr := grow fuel R u tl.2
        (RTree.node (pick_threshold (minX l) (maxX l) (u c)) tl.1 tr.1, tr.2)
      else (RTree.leaf (meanY l), c)

/-- Tree prediction (spec section 4.G): descend from the root, going left
when the feature is `≤` the node threshold, and return the leaf value. -/
def predict_tree : RTree → ℚ → ℚ
  | RTree.leaf m, _ => m
  | RTree.node tau tl tr, x =>
    if x ≤ tau then predict_tree tl x else predict_tree tr x

/-- Modelled from the spec: the ensemble builder of api.rs — `n`
independent trees over the same data, each tree's splitter drawing from
its own stream. -/
def fit_forest (n : ℕ) (data : List RSample) (us : ℕ → ℕ → ℚ) : List RTree :=
  (List.range n).map (fun i => (grow data.length data (us i) 0).1)

/-- Modelled from the spec: regression forest prediction, the arithmetic
mean of the per-tree predictions. -/
def predict_forest (ts : List RTree) (x : ℚ) : ℚ :=
  (ts.map (fun t => predict_tree t x)).sum / (ts.length : ℚ)

/-- The training set of the api.rs regression test:
x = [1],[2],[3],[7],[8],[9] with targets y = 5,5,5,2,2,2. -/
def test_data : List RSample := [(1, 5), (2, 5), (3, 5), (7, 2), (8, 2), (9, 2)]

/-- Claim C1: `partition_data` returns two contiguous sub-slices; the left
one contains exactly the samples whose split feature is `<=` the
threshold, the right one the rest, and their concatenation is a
permutation of the original slice (the multiset of samples is
unchanged). -/
theorem partition_data_correct {S Θ : Type} (feat : S → Θ → Fl) (l : List S)
    (theta : Θ) (tau : Fl) :
    (∀ s ∈ (partition_data feat l theta tau).1, fle (feat s theta) tau = true) ∧
    (∀ s ∈ (partition_data feat l theta tau).2, fle (feat s theta) tau = false) ∧
    ((partition_data feat l theta tau).1 ++ (partition_data feat l theta tau).2).Perm l := by
  unfold partition_data partitionPrim
  simp only [List.take_left, List.drop_left]
  refine ⟨?_, ?_, List.filter_append_perm _ l⟩
  · intro s hs
    exact (List.mem_filter.mp hs).2
  · intro s hs
    have h := (List.mem_filter.mp hs).2
    simpa using h

/-- Claim C9: in the slice implementation of `partition_data`, a sample
whose feature at `theta` is NaN always lands in the right sub-slice and
never in the left one, because `NaN <= tau` is `false`; the partition
itself returns normally. -/
theorem partition_data_nan_right {S Θ : Type} (feat : S → Θ → Fl) (l : List S)
    (theta : Θ) (tau : Fl) (s : S) (hs : s ∈ l) (hnan : feat s theta = Fl.nan) :
    s ∈ (partition_data feat l theta tau).2 ∧
      s ∉ (partition_data feat l theta tau).1 := by
  have hp : fle (feat s theta) tau = false := by rw [hnan]; cases tau <;> rfl
  unfold partition_data partitionPrim
  simp only [List.take_left, List.drop_left]
  constructor
  · exact List.mem_filter.mpr ⟨hs, by simp [hp]⟩
  · intro hmem
    have := (List.mem_filter.mp hmem).2
    rw [hp] at this
    exact Bool.false_ne_true this

/-- Witness for C9 at a concrete input: a two-sample slice where the first
sample's feature is NaN. -/
theorem partition_data_nan_right_witness :
    Fl.nan ∈ (partition_data (fun s (_ : ℕ) => s) [Fl.nan, Fl.val 1] 0 (Fl.val 2)).2 ∧
      Fl.nan ∉ (partition_data (fun s (_ : ℕ) => s) [Fl.nan, Fl.val 1] 0 (Fl.val 2)).1 :=
  partition_data_nan_right (fun s _ => s) [Fl.nan, Fl.val 1] 0 (Fl.val 2) Fl.nan
    (by simp) rfl

/-- Counterexample to claim C5: on a slice containing a NaN feature,
partitioning does not fail with an error; `partition_data` returns an
ordinary pair of sub-slices, with the NaN sample in the right one. -/
theorem partition_data_nan_no_error :
    partition_data (fun s (_ : ℕ) => s) [Fl.nan, Fl.val 1] 0 (Fl.val 2)
      = ([Fl.val 1], [Fl.nan]) := by decide

/-- Claim C5 as amended: sorting fails loudly — `sort_data` propagates an
error (the comparator panic) whenever the slice has at least two samples
and one of them has a NaN feature — while `partition_data` completes
normally on NaN features (see the counterexample above). -/
theorem sort_data_nan_error {S Θ : Type} (feat : S → Θ → Fl) (l : List S)
    (theta : Θ) (hlen : 2 ≤ l.length) (hnan : ∃ s ∈ l, feat s theta = Fl.nan) :
    sort_data feat l theta =
      Except.error "Could not compare samples (this is likely caused by a NaN feature" := by
  unfold sort_data
  rw [if_pos]
  refine ⟨hlen, ?_⟩
  rcases hnan with ⟨s, hs, hfeat⟩
  exact List.any_eq_true.mpr ⟨s, hs, by simp [hfeat]⟩

/-- Witness for the amended C5 at a concrete input. -/
theorem sort_data_nan_error_witness :
    sort_data (fun s (_ : ℕ) => s) [Fl.nan, Fl.val 1] 0 =
      Except.error "Could not compare samples (this is likely caused by a NaN feature" :=
  sort_data_nan_error (fun s _ => s) [Fl.nan, Fl.val 1] 0 (by decide)
    ⟨Fl.nan, by simp, rfl⟩

/-- Counterexample to claim C8: `feature_bounds` called on the empty
subset does not surface an error value; it returns the ordinary pair
`(INFINITY, NEG_INFINITY)`. -/
theorem feature_bounds_empty :
    feature_bounds (fun (s : Fl) (_ : ℕ) => s) [] 0 = (Fl.inf, Fl.ninf) := rfl

/-- Claim C8 as amended: on the empty subset, `feature_bounds` returns the
fold's initial accumulator — `(INFINITY, NEG_INFINITY)` for `f64`
features, `(255, 0)` for `u8` features — as an ordinary pair; no error is
signalled. -/
theorem feature_bounds_empty_amended {S Θ : Type} (feat : S → Θ → Fl)
    (featU : S → Θ → ℕ) (theta : Θ) :
    feature_bounds feat ([] : List S) theta = (Fl.inf, Fl.ninf) ∧
      feature_bounds_u8 featU ([] : List S) theta = (255, 0) :=
  ⟨rfl, rfl⟩

/-- A fold over the pair of bound accumulators equals the pair of the
component folds. -/
theorem foldl_pair {S α β : Type} (f : α → S → α) (g : β → S → β) :
    ∀ (l : List S) (a : α) (b : β),
      l.foldl (fun mm s => (f mm.1 s, g mm.2 s)) (a, b) = (l.foldl f a, l.foldl g b) := by
  intro l
  induction l with
  | nil => intro a b; rfl
  | cons x t ih => intro a b; rw [List.foldl_cons, List.foldl_cons, List.foldl_cons]; exact ih _ _

/-- The running minimum is the initial accumulator or is attained in the
list. -/
theorem foldl_kmin_mem {S α : Type} [LinearOrder α] (k : S → α) :
    ∀ (t : List S) (a : α),
      t.foldl (fun m s => qmin m (k s)) a = a ∨
        ∃ s ∈ t, t.foldl (fun m s => qmin m (k s)) a = k s := by
  intro t
  induction t with
  | nil => intro a; left; rfl
  | cons x ts ih =>
    intro a
    rw [List.foldl_cons]
    by_cases hc : k x < a
    · have hq : qmin a (k x) = k x := by simp [qmin, hc]
      rcases ih (qmin a (k x)) with h | ⟨s, hs, h⟩
      · right; exact ⟨x, List.mem_cons_self x ts, by rw [h, hq]⟩
      · right; exact ⟨s, List.mem_cons_of_mem x hs, h⟩
    · have hq : qmin a (k x) = a := by simp [qmin, hc]
      rcases ih (qmin a (k x)) with h | ⟨s, hs, h⟩
      · left; rw [h, hq]
      · right; exact ⟨s, List.mem_cons_of_mem x hs, h⟩

/-- The running minimum is a lower bound on the initial accumulator and on
the list. -/
theorem foldl_kmin_le {S α : Type} [LinearOrder α] (k : S → α) :
    ∀ (t : List S) (a : α),
      t.foldl (fun m s => qmin m (k s)) a ≤ a ∧
        ∀ s ∈ t, t.foldl (fun m s => qmin m (k s)) a ≤ k s := by
  intro t
  induction t with
  | nil => intro a; exact ⟨le_refl a, by intro s hs; cases hs⟩
  | cons x ts ih =>
    intro a
    rw [List.foldl_cons]
    obtain ⟨h1, h2⟩ := ih (qmin a (k x))
    have hqa : qmin a (k x) ≤ a := by
      by_cases hc : k x < a
      · simp [qmin, hc]; exact le_of_lt hc
      · simp [qmin, hc]
    have hqx : qmin a (k x) ≤ k x := by
      by_cases hc : k x < a
      · simp [qmin, hc]
      · simp [qmin, hc]; exact le_of_not_lt hc
    refine ⟨h1.trans hqa, ?_⟩
    intro s hs
    rcases List.mem_cons.mp hs with rfl | hs
    · exact h1.trans hqx
    · exact h2 s hs

/-- The running maximum is the initial accumulator or is attained in the
list. -/
theorem foldl_kmax_mem {S α : Type} [LinearOrder α] (k : S → α) :
    ∀ (t : List S) (a : α),
      t.foldl (fun m s => qmax m (k s)) a = a ∨
        ∃ s ∈ t, t.foldl (fun m s => qmax m (k s)) a = k s := by
  intro t
  induction t with
  | nil => intro a; left; rfl
  | cons x ts ih =>
    intro a
    rw [List.foldl_cons]
    by_cases hc : a < k x
    · have hq : qmax a (k x) = k x := by simp [qmax, hc]
      rcases ih (qmax a (k x)) with h | ⟨s, hs, h⟩
      · right; exact ⟨x, List.mem_cons_self x ts, by rw [h, hq]⟩
      · right; exact ⟨s, List.mem_cons_of_mem x hs, h⟩
    · have hq : qmax a (k x) = a := by simp [qmax, hc]
      rcases ih (qmax a (k x)) with h | ⟨s, hs, h⟩
      · left; rw [h, hq]
      · right; exact ⟨s, List.mem_cons_of_mem x hs, h⟩

/-- The running maximum is an upper bound on the initial accumulator and on
the list. -/
theorem foldl_kmax_le {S α : Type} [LinearOrder α] (k : S → α) :
    ∀ (t : List S) (a : α),
      a ≤ t.foldl (fun m s => qmax m (k s)) a ∧
        ∀ s ∈ t, k s ≤ t.foldl (fun m s => qmax m (k s)) a := by
  intro t
  induction t with
  | nil => intro a; exact ⟨le_refl a, by intro s hs; cases hs⟩
  | cons x ts ih =>
    intro a
    rw [List.foldl_cons]
    obtain ⟨h1, h2⟩ := ih (qmax a (k x))
    have hqa : a ≤ qmax a (k x) := by
      by_cases hc : a < k x
      · simp [qmax, hc]; exact le_of_lt hc
      · simp [qmax, hc]
    have hqx : k x ≤ qmax a (k x) := by
      by_cases hc : a < k x
      · simp [qmax, hc]
      · simp [qmax, hc]; exact le_of_not_lt hc
    refine ⟨hqa.trans h1, ?_⟩
    intro s hs
    rcases List.mem_cons.mp hs with rfl | hs
    · exact hqx.trans h1
    · exact h2 s hs

/-- When every feature in the list is an ordinary value, the minimum
component of the `feature_bounds` fold stays an ordinary value and tracks
the rational running minimum. -/
theorem foldl_flmin_val {S Θ : Type} (feat : S → Θ → Fl) (k : S → ℚ) (theta : Θ) :
    ∀ (xs : List S), (∀ s ∈ xs, feat s theta = Fl.val (k s)) → ∀ (a : ℚ),
      xs.foldl (fun m s => if flt (feat s theta) m then feat s theta else m) (Fl.val a)
        = Fl.val (xs.foldl (fun m s => qmin m (k s)) a) := by
  intro xs
  induction xs with
  | nil => intro _ a; rfl
  | cons x t ih =>
    intro h a
    rw [List.foldl_cons, List.foldl_cons]
    have hx : feat x theta = Fl.val (k x) := h x (List.mem_cons_self x t)
    rw [hx]
    have hstep : (if flt (Fl.val (k x)) (Fl.val a) then Fl.val (k x) else Fl.val a)
        = Fl.val (qmin a (k x)) := by
      have : flt (Fl.val (k x)) (Fl.val a) = decide (k x < a) := rfl
      rw [this, qmin]
      by_cases hc : k x < a <;> simp [hc]
    rw [hstep]
    exact ih (fun s hs => h s (List.mem_cons_of_mem x hs)) _

/-- When every feature in the list is an ordinary value, the maximum
component of the `feature_bounds` fold stays an ordinary value and tracks
the rational running maximum. -/
theorem foldl_flmax_val {S Θ : Type} (feat : S → Θ → Fl) (k : S → ℚ) (theta : Θ) :
    ∀ (xs : List S), (∀ s ∈ xs, feat s theta = Fl.val (k s)) → ∀ (b : ℚ),
      xs.foldl (fun m s => if flt m (feat s theta) then feat s theta else m) (Fl.val b)
        = Fl.val (xs.foldl (fun m s => qmax m (k s)) b) := by
  intro xs
  induction xs with
  | nil => intro _ b; rfl
  | cons x t ih =>
    intro h b
    rw [List.foldl_cons, List.foldl_cons]
    have hx : feat x theta = Fl.val (k x) := h x (List.mem_cons_self x t)
    rw [hx]
    have hstep : (if flt (Fl.val b) (Fl.val (k x)) then Fl.val (k x) else Fl.val b)
        = Fl.val (qmax b (k x)) := by
      have : flt (Fl.val b) (Fl.val (k x)) = decide (b < k x) := rfl
      rw [this, qmax]
      by_cases hc : b < k x <;> simp [hc]
    rw [hstep]
    exact ih (fun s hs => h s (List.mem_cons_of_mem x hs)) _

/-- Claim C4: on a non-empty subset whose features at `theta` are ordinary
(non-NaN, finite) values, `feature_bounds` returns the pair of the minimum
and the maximum of the feature over the subset; likewise for the `u8`
variant of profile2.rs on features bounded by 255. -/
theorem feature_bounds_minmax {S Θ : Type} (feat : S → Θ → Fl) (k : S → ℚ)
    (featU : S → Θ → ℕ) (theta : Θ) (l : List S) (hne : l ≠ [])
    (hval : ∀ s ∈ l, feat s theta = Fl.val (k s))
    (hbound : ∀ s ∈ l, featU s theta ≤ 255) :
    (∃ lo hi : ℚ, feature_bounds feat l theta = (Fl.val lo, Fl.val hi) ∧
      (∃ s ∈ l, k s = lo) ∧ (∀ s ∈ l, lo ≤ k s) ∧
      (∃ s ∈ l, k s = hi) ∧ (∀ s ∈ l, k s ≤ hi)) ∧
    (∃ lo hi : ℕ, feature_bounds_u8 featU l theta = (lo, hi) ∧
      (∃ s ∈ l, featU s theta = lo) ∧ (∀ s ∈ l, lo ≤ featU s theta) ∧
      (∃ s ∈ l, featU s theta = hi) ∧ (∀ s ∈ l, featU s theta ≤ hi)) := by
  obtain ⟨x, t, rfl⟩ := List.exists_cons_of_ne_nil hne
  constructor
  · -- f64 variant
    unfold feature_bounds
    rw [foldl_pair (fun m s => if flt (feat s theta) m then feat s theta else m)
      (fun m s => if flt m (feat s theta) then feat s theta else m)]
    have hx : feat x theta = Fl.val (k x) := hval x (List.mem_cons_self x t)
    have htail : ∀ s ∈ t, feat s theta = Fl.val (k s) :=
      fun s hs => hval s (List.mem_cons_of_mem x hs)
    rw [List.foldl_cons, List.foldl_cons, hx]
    have h1 : (if flt (Fl.val (k x)) Fl.inf then Fl.val (k x) else Fl.inf) = Fl.val (k x) := rfl
    have h2 : (if flt Fl.ninf (Fl.val (k x)) then Fl.val (k x) else Fl.ninf) = Fl.val (k x) := rfl
    rw [h1, h2, foldl_flmin_val feat k theta t htail, foldl_flmax_val feat k theta t htail]
    refine ⟨t.foldl (fun m s => qmin m (k s)) (k x),
           t.foldl (fun m s => qmax m (k s)) (k x), rfl, ?_, ?_, ?_, ?_⟩
    · rcases foldl_kmin_mem k t (k x) with h | ⟨s, hs, h⟩
      · exact ⟨x, List.mem_cons_self x t, h.symm⟩
      · exact ⟨s, List.mem_cons_of_mem x hs, h.symm⟩
    · intro s hs
      obtain ⟨ha, hmem⟩ := foldl_kmin_le k t (k x)
      rcases List.mem_cons.mp hs with rfl | hs
      · exact ha
      · exact hmem s hs
    · rcases foldl_kmax_mem k t (k x) with h | ⟨s, hs, h⟩
      · exact ⟨x, List.mem_cons_self x t, h.symm⟩
      · exact ⟨s, List.mem_cons_of_mem x hs, h.symm⟩
    · intro s hs
      obtain ⟨ha, hmem⟩ := foldl_kmax_le k t (k x)
      rcases List.mem_cons.mp hs with rfl | hs
      · exact ha
      · exact hmem s hs
  · -- u8 variant
    unfold feature_bounds_u8
    rw [foldl_pair (fun m s => if featU s theta < m then featU s theta else m)
      (fun m s => if m < featU s theta then featU s theta else m)]
    have hmin : (x :: t).foldl (fun m s => if featU s theta < m then featU s theta else m) 255
        = (x :: t).foldl (fun m s => qmin m (featU s theta)) 255 := rfl
    have hmax : (x :: t).foldl (fun m s => if m < featU s theta then featU s theta else m) 0
        = (x :: t).foldl (fun m s => qmax m (featU s theta)) 0 := rfl
    rw [hmin, hmax]
    refine ⟨(x :: t).foldl (fun m s => qmin m (featU s theta)) 255,
           (x :: t).foldl (fun m s => qmax m (featU s theta)) 0, rfl, ?_, ?_, ?_, ?_⟩
    · rcases foldl_kmin_mem (fun s => featU s theta) (x :: t) 255 with h | ⟨s, hs, h⟩
      · -- the fold stayed at 255; then the head feature is 255 and attains it
        obtain ⟨_, hmem⟩ := foldl_kmin_le (fun s => featU s theta) (x :: t) 255
        have hle := hmem x (List.mem_cons_self x t)
        rw [h] at hle
        exact ⟨x, List.mem_cons_self x t,
          le_antisymm (hbound x (List.mem_cons_self x t)) hle |>.trans h.symm⟩
      · exact ⟨s, hs, h.symm⟩
    · intro s hs
      obtain ⟨_, hmem⟩ := foldl_kmin_le (fun s => featU s theta) (x :: t) 255
      exact hmem s hs
    · rcases foldl_kmax_mem (fun s => featU s theta) (x :: t) 0 with h | ⟨s, hs, h⟩
      · obtain ⟨_, hmem⟩ := foldl_kmax_le (fun s => featU s theta) (x :: t) 0
        have hle := hmem x (List.mem_cons_self x t)
        rw [h] at hle
        exact ⟨x, List.mem_cons_self x t, (Nat.le_zero.mp hle).trans h.symm⟩
      · exact ⟨s, hs, h.symm⟩
    · intro s hs
      obtain ⟨_, hmem⟩ := foldl_kmax_le (fun s => featU s theta) (x :: t) 0
      exact hmem s hs

/-- Witness for C4 at a concrete input: the two-sample subset with feature
values 3 and 1. -/
theorem feature_bounds_minmax_witness :
    (∃ lo hi : ℚ,
      feature_bounds (fun (s : ℚ) (_ : ℕ) => Fl.val s) [3, 1] 0 = (Fl.val lo, Fl.val hi) ∧
      (∃ s ∈ [(3 : ℚ), 1], id s = lo) ∧ (∀ s ∈ [(3 : ℚ), 1], lo ≤ id s) ∧
      (∃ s ∈ [(3 : ℚ), 1], id s = hi) ∧ (∀ s ∈ [(3 : ℚ), 1], id s ≤ hi)) ∧
    (∃ lo hi : ℕ,
      feature_bounds_u8 (fun (_ : ℚ) (_ : ℕ) => 7) [3, 1] 0 = (lo, hi) ∧
      (∃ s ∈ [(3 : ℚ), 1], (7 : ℕ) = lo) ∧ (∀ _s ∈ [(3 : ℚ), 1], lo ≤ 7) ∧
      (∃ s ∈ [(3 : ℚ), 1], (7 : ℕ) = hi) ∧ (∀ _s ∈ [(3 : ℚ), 1], (7 : ℕ) ≤ hi)) :=
  feature_bounds_minmax (fun s _ => Fl.val s) id (fun _ _ => 7) 0 [3, 1]
    (by decide) (fun s _ => rfl) (fun s _ => by show (7 : ℕ) ≤ 255; decide)

/-- A mapped sum over `List.range n` is the `Finset.range n` sum. -/
theorem list_map_range_sum (f : ℕ → ℚ) :
    ∀ n, ((List.range n).map f).sum = ∑ i ∈ Finset.range n, f i := by
  intro n
  induction n with
  | zero => rfl
  | succ n ih =>
    rw [List.range_succ, List.map_append, List.sum_append, Finset.sum_range_succ, ih]
    simp

/-- Claim C3: on a non-empty classification subset, `split_criterion`
returns the Gini impurity of the subset: the sum over all classes `c` of
`p_c * (1 - p_c)` with `p_c = count(c) / total`; this holds for the
three-class criterion of extra_trees_classifier.rs and for the ten-digit
criterion of profile2.rs. -/
theorem split_criterion_gini (l : List Classes) (ld : List ℕ) (hne : l ≠ [])
    (hd : ld ≠ []) (hdig : ∀ d ∈ ld, d < 10) :
    split_criterion l = ∑ c : Classes, probability l c * (1 - probability l c) ∧
      split_criterion_digits ld
        = ∑ c ∈ Finset.range 10, probabilityD ld c * (1 - probabilityD ld c) := by
  constructor
  · have huniv : (Finset.univ : Finset Classes)
        = {Classes.Red, Classes.Green, Classes.Blue} := rfl
    rw [huniv]
    rw [Finset.sum_insert (by decide), Finset.sum_insert (by decide),
      Finset.sum_singleton]
    unfold split_criterion
    ring
  · exact list_map_range_sum _ 10

/-- Witness for C3 at a concrete input: a mixed two-sample rgb subset and a
singleton digit subset. -/
theorem split_criterion_gini_witness :
    split_criterion [Classes.Red, Classes.Green]
        = ∑ c : Classes,
            probability [Classes.Red, Classes.Green] c
              * (1 - probability [Classes.Red, Classes.Green] c) ∧
      split_criterion_digits [3]
        = ∑ c ∈ Finset.range 10, probabilityD [3] c * (1 - probabilityD [3] c) :=
  split_criterion_gini [Classes.Red, Classes.Green] [3] (by decide) (by decide)
    (by decide)

/-- The best-candidate fold returns the initial accumulator or an element
of the list. -/
theorem best_step_foldl_mem {S : Type} :
    ∀ (xs : List ((S → Bool) × ℚ)) (acc : Option ((S → Bool) × ℚ))
      (b : (S → Bool) × ℚ),
      xs.foldl best_step acc = some b → acc = some b ∨ b ∈ xs := by
  intro xs
  induction xs with
  | nil => intro acc b h; left; exact h
  | cons x t ih =>
    intro acc b h
    rw [List.foldl_cons] at h
    rcases ih (best_step acc x) b h with h2 | h2
    · cases acc with
      | none =>
        right
        have hx : some x = some b := h2
        exact (Option.some.inj hx) ▸ List.mem_cons_self x t
      | some a =>
        by_cases hc : x.2 < a.2
        · right
          have hb : best_step (some a) x = some x := by simp [best_step, hc]
          rw [hb] at h2
          exact (Option.some.inj h2) ▸ List.mem_cons_self x t
        · left
          have hb : best_step (some a) x = some a := by simp [best_step, hc]
          rw [hb] at h2
          exact h2
    · right; exact List.mem_cons_of_mem x h2

/-- Claim C2: when `best_random_split` returns a split, that split is one
of the candidates, the returned score is its sample-weighted post-split
score, and it is strictly less than the subset's pre-split score; when no
candidate scores strictly below the pre-split score, no split is
returned. -/
theorem best_random_split_improves {S : Type} (crit : List S → ℚ) (l : List S)
    (cands : List (S → Bool)) :
    (∀ b, best_random_split crit l cands = some b →
        b.1 ∈ cands ∧ b.2 = post_split_score crit b.1 l ∧ b.2 < crit l) ∧
      ((∀ p ∈ cands, ¬ post_split_score crit p l < crit l) →
        best_random_split crit l cands = none) := by
  constructor
  · intro b h
    unfold best_random_split at h
    rcases hfold : (cands.map fun p => (p, post_split_score crit p l)).foldl
        best_step none with _ | b0
    · rw [hfold] at h
      exact absurd h (by simp)
    · rw [hfold] at h
      have h2 : (if b0.2 < crit l then some b0 else none) = some b := h
      by_cases hlt : b0.2 < crit l
      · rw [if_pos hlt] at h2
        have hb : b0 = b := Option.some.inj h2
        subst hb
        rcases best_step_foldl_mem _ none b0 hfold with habs | hmem
        · exact absurd habs (by simp)
        · rcases List.mem_map.mp hmem with ⟨p, hp, heq⟩
          refine ⟨?_, ?_, hlt⟩
          · rw [← heq]; exact hp
          · rw [← heq]
      · rw [if_neg hlt] at h2
        exact absurd h2 (by simp)
  · intro hall
    unfold best_random_split
    rcases hfold : (cands.map fun p => (p, post_split_score crit p l)).foldl
        best_step none with _ | b0
    · rfl
    · show (if b0.2 < crit l then some b0 else none) = none
      rcases best_step_foldl_mem _ none b0 hfold with habs | hmem
      · exact absurd habs (by simp)
      · rcases List.mem_map.mp hmem with ⟨p, hp, heq⟩
        rw [if_neg (by rw [← heq]; exact hall p hp)]

/-- Witness for C2 at a concrete input: on the subset `[1, 5]` with the
list-length criterion, the single candidate `x ≤ 3` is returned with a
strictly smaller score, and with no candidates no split is returned. -/
theorem best_random_split_improves_witness :
    ((fun (x : ℚ) => decide (x ≤ 3)) ∈ [fun (x : ℚ) => decide (x ≤ 3)] ∧
        post_split_score (fun t => (t.length : ℚ)) (fun (x : ℚ) => decide (x ≤ 3)) [1, 5]
          = post_split_score (fun t => (t.length : ℚ)) (fun (x : ℚ) => decide (x ≤ 3)) [1, 5] ∧
        post_split_score (fun t => (t.length : ℚ)) (fun (x : ℚ) => decide (x ≤ 3)) [1, 5]
          < (fun t => (t.length : ℚ)) [1, 5]) ∧
      best_random_split (fun t => (t.length : ℚ)) ([1, 5] : List ℚ) [] = none :=
  ⟨(best_random_split_improves (fun t => (t.length : ℚ)) [1, 5]
        [fun (x : ℚ) => decide (x ≤ 3)]).1
      (fun (x : ℚ) => decide (x ≤ 3),
        post_split_score (fun t => (t.length : ℚ)) (fun (x : ℚ) => decide (x ≤ 3)) [1, 5])
      (by
        simp only [best_random_split, List.map_cons, List.map_nil, List.foldl_cons,
          List.foldl_nil, best_step]
        rw [if_pos]
        have hv : post_split_score (fun t => (t.length : ℚ))
            (fun (x : ℚ) => decide (x ≤ 3)) [1, 5] = 1 := by
          simp [post_split_score, List.filter]
          norm_num
        rw [hv]
        norm_num),
    (best_random_split_improves (fun t => (t.length : ℚ)) [1, 5] []).2
      (fun p hp => absurd hp (List.not_mem_nil p))⟩

/-- Counterexample to claim C6: two fitting runs that agree on the
splitter's generator stream but differ in the process-global thread
generator propose different splits, so a source of randomness other than
the generator passed into the splitter influences the model. -/
theorem propose_split_depends_on_global_rng :
    propose_split [⟨1, 10⟩, ⟨2, 20⟩] (fun _ => 0) (fun _ => 0)
      ≠ propose_split [⟨1, 10⟩, ⟨2, 20⟩] (fun _ => 1) (fun _ => 0) := by
  decide

/-- Claim C6 as amended: training is deterministic given both random
sources — the split feature is a function of the global thread-generator
stream alone (`gen_range(0, 2)` reads `thread_rng`, not the splitter's
generator), so it is unchanged under any change of the splitter stream,
and with both streams fixed the proposal is fully determined. -/
theorem propose_split_theta_from_global (data : List CSample) (g : ℕ → ℕ)
    (u v : ℕ → ℚ) :
    (propose_split data g u).1 = g 0 % 2 ∧
      (propose_split data g u).1 = (propose_split data g v).1 :=
  ⟨rfl, rfl⟩

/-- Claim C10: each configuration setter of `ExtraTreesRegressor` updates
only its named field and leaves the other two configuration fields
unchanged. -/
theorem extra_trees_regressor_setters_frame (b : ExtraTreesRegressor) (n : ℕ) :
    (set_n_estimators b n).n_estimators = n ∧
    (set_n_estimators b n).n_splits = b.n_splits ∧
    (set_n_estimators b n).min_samples_split = b.min_samples_split ∧
    (set_n_splits b n).n_splits = n ∧
    (set_n_splits b n).n_estimators = b.n_estimators ∧
    (set_n_splits b n).min_samples_split = b.min_samples_split ∧
    (set_min_samples_split b n).min_samples_split = n ∧
    (set_min_samples_split b n).n_estimators = b.n_estimators ∧
    (set_min_samples_split b n).n_splits = b.n_splits := by
  refine ⟨rfl, rfl, rfl, rfl, rfl, rfl, rfl, rfl, rfl⟩

/-- A list of rationals bounded above by `b` has sum at most `b` times its
length. -/
theorem list_sum_le_mul (b : ℚ) :
    ∀ l : List ℚ, (∀ y ∈ l, y ≤ b) → l.sum ≤ b * l.length := by
  intro l
  induction l with
  | nil => intro _; simp
  | cons x t ih =>
    intro h
    have hx : x ≤ b := h x (List.mem_cons_self x t)
    have ht := ih (fun y hy => h y (List.mem_cons_of_mem x hy))
    simp only [List.sum_cons, List.length_cons]
    push_cast
    linarith

/-- A list of rationals bounded below by `a` has sum at least `a` times
its length. -/
theorem list_mul_le_sum (a : ℚ) :
    ∀ l : List ℚ, (∀ y ∈ l, a ≤ y) → a * l.length ≤ l.sum := by
  intro l
  induction l with
  | nil => intro _; simp
  | cons x t ih =>
    intro h
    have hx : a ≤ x := h x (List.mem_cons_self x t)
    have ht := ih (fun y hy => h y (List.mem_cons_of_mem x hy))
    simp only [List.sum_cons, List.length_cons]
    push_cast
    linarith

/-- The sum bound is strict when some element is strictly below the
bound. -/
theorem list_sum_lt_mul (b : ℚ) :
    ∀ l : List ℚ, (∀ y ∈ l, y ≤ b) → (∃ y ∈ l, y < b) → l.sum < b * l.length := by
  intro l
  induction l with
  | nil => intro _ hw; rcases hw with ⟨y, hy, _⟩; cases hy
  | cons x t ih =>
    intro h hw
    have hx : x ≤ b := h x (List.mem_cons_self x t)
    have ht := list_sum_le_mul b t (fun y hy => h y (List.mem_cons_of_mem x hy))
    simp only [List.sum_cons, List.length_cons]
    push_cast
    rcases hw with ⟨y, hy, hylt⟩
    rcases List.mem_cons.mp hy with rfl | hyt
    · linarith
    · have := ih (fun z hz => h z (List.mem_cons_of_mem x hz)) ⟨y, hyt, hylt⟩
      push_cast at this
      linarith

/-- The lower sum bound is strict when some element is strictly above the
bound. -/
theorem list_mul_lt_sum (a : ℚ) :
    ∀ l : List ℚ, (∀ y ∈ l, a ≤ y) → (∃ y ∈ l, a < y) → a * l.length < l.sum := by
  intro l
  induction l with
  | nil => intro _ hw; rcases hw with ⟨y, hy, _⟩; cases hy
  | cons x t ih =>
    intro h hw
    have hx : a ≤ x := h x (List.mem_cons_self x t)
    have ht := list_mul_le_sum a t (fun y hy => h y (List.mem_cons_of_mem x hy))
    simp only [List.sum_cons, List.length_cons]
    push_cast
    rcases hw with ⟨y, hy, hylt⟩
    rcases List.mem_cons.mp hy with rfl | hyt
    · linarith
    · have := ih (fun z hz => h z (List.mem_cons_of_mem x hz)) ⟨y, hyt, hylt⟩
      push_cast at this
      linarith

/-- A list of constants sums to the constant times the length. -/
theorem list_sum_const (c : ℚ) :
    ∀ l : List ℚ, (∀ y ∈ l, y = c) → l.sum = c * l.length := by
  intro l
  induction l with
  | nil => intro _; simp
  | cons x t ih =>
    intro h
    have hx : x = c := h x (List.mem_cons_self x t)
    have ht := ih (fun y hy => h y (List.mem_cons_of_mem x hy))
    simp only [List.sum_cons, List.length_cons]
    push_cast
    rw [hx, ht]
    ring

/-- A list of nonnegative rationals with zero sum is all zeros. -/
theorem list_sum_nonneg_all_zero :
    ∀ l : List ℚ, (∀ y ∈ l, 0 ≤ y) → l.sum = 0 → ∀ y ∈ l, y = 0 := by
  intro l
  induction l with
  | nil => intro _ _ y hy; cases hy
  | cons x t ih =>
    intro h hz y hy
    have hx : 0 ≤ x := h x (List.mem_cons_self x t)
    have ht : 0 ≤ t.sum :=
      List.sum_nonneg (fun z hz2 => h z (List.mem_cons_of_mem x hz2))
    simp only [List.sum_cons] at hz
    have hx0 : x = 0 := by linarith
    have ht0 : t.sum = 0 := by linarith
    rcases List.mem_cons.mp hy with rfl | hyt
    · exact hx0
    · exact ih (fun z hz2 => h z (List.mem_cons_of_mem x hz2)) ht0 y hyt

/-- The mean of a non-empty subset of constant target is that constant. -/
theorem meanY_const (l : List RSample) (c : ℚ) (hne : l ≠ [])
    (h : ∀ s ∈ l, s.2 = c) : meanY l = c := by
  have hn : (l.length : ℚ) ≠ 0 :=
    Nat.cast_ne_zero.mpr (List.length_pos.mpr hne).ne'
  have hsum : (l.map Prod.snd).sum = c * l.length := by
    have := list_sum_const c (l.map Prod.snd) (by
      intro y hy
      rcases List.mem_map.mp hy with ⟨s, hs, rfl⟩
      exact h s hs)
    simpa using this
  unfold meanY sumY
  rw [hsum]
  field_simp

/-- The mean of a non-empty subset is bounded above by any bound on its
targets. -/
theorem meanY_le (l : List RSample) (b : ℚ) (hne : l ≠ [])
    (h : ∀ s ∈ l, s.2 ≤ b) : meanY l ≤ b := by
  have hn : (0 : ℚ) < (l.length : ℚ) := by
    exact_mod_cast List.length_pos.mpr hne
  have hsum : (l.map Prod.snd).sum ≤ b * l.length := by
    have := list_sum_le_mul b (l.map Prod.snd) (by
      intro y hy
      rcases List.mem_map.mp hy with ⟨s, hs, rfl⟩
      exact h s hs)
    simpa using this
  unfold meanY sumY
  rw [div_le_iff hn]
  linarith

/-- The mean of a non-empty subset is bounded below by any lower bound on
its targets. -/
theorem le_meanY (l : List RSample) (a : ℚ) (hne : l ≠ [])
    (h : ∀ s ∈ l, a ≤ s.2) : a ≤ meanY l := by
  have hn : (0 : ℚ) < (l.length : ℚ) := by
    exact_mod_cast List.length_pos.mpr hne
  have hsum : a * l.length ≤ (l.map Prod.snd).sum := by
    have := list_mul_le_sum a (l.map Prod.snd) (by
      intro y hy
      rcases List.mem_map.mp hy with ⟨s, hs, rfl⟩
      exact h s hs)
    simpa using this
  unfold meanY sumY
  rw [le_div_iff hn]
  linarith

/-- The mean bound is strict when some target is strictly below the
bound. -/
theorem meanY_lt (l : List RSample) (b : ℚ) (hne : l ≠ [])
    (h : ∀ s ∈ l, s.2 ≤ b) (hw : ∃ s ∈ l, s.2 < b) : meanY l < b := by
  have hn : (0 : ℚ) < (l.length : ℚ) := by
    exact_mod_cast List.length_pos.mpr hne
  have hsum : (l.map Prod.snd).sum < b * l.length := by
    have := list_sum_lt_mul b (l.map Prod.snd)
      (by
        intro y hy
        rcases List.mem_map.mp hy with ⟨s, hs, rfl⟩
        exact h s hs)
      (by
        rcases hw with ⟨s, hs, hlt⟩
        exact ⟨s.2, List.mem_map.mpr ⟨s, hs, rfl⟩, hlt⟩)
    simpa using this
  unfold meanY sumY
  rw [div_lt_iff hn]
  linarith

/-- The lower mean bound is strict when some target is strictly above the
bound. -/
theorem lt_meanY (l : List RSample) (a : ℚ) (hne : l ≠ [])
    (h : ∀ s ∈ l, a ≤ s.2) (hw : ∃ s ∈ l, a < s.2) : a < meanY l := by
  have hn : (0 : ℚ) < (l.length : ℚ) := by
    exact_mod_cast List.length_pos.mpr hne
  have hsum : a * l.length < (l.map Prod.snd).sum := by
    have := list_mul_lt_sum a (l.map Prod.snd)
      (by
        intro y hy
        rcases List.mem_map.mp hy with ⟨s, hs, rfl⟩
        exact h s hs)
      (by
        rcases hw with ⟨s, hs, hlt⟩
        exact ⟨s.2, List.mem_map.mpr ⟨s, hs, rfl⟩, hlt⟩)
    simpa using this
  unfold meanY sumY
  rw [lt_div_iff hn]
  linarith

/-- Expansion of the sum of squared deviations about an arbitrary
center. -/
theorem sumsq_expand (m : ℚ) :
    ∀ l : List RSample, (l.map (fun s => (s.2 - m) ^ 2)).sum
      = sumYsq l - 2 * m * sumY l + (l.length : ℚ) * m ^ 2 := by
  intro l
  induction l with
  | nil => simp [sumYsq, sumY]
  | cons x t ih =>
    simp only [List.map_cons, List.sum_cons, sumYsq, sumY, List.length_cons] at *
    rw [ih]
    push_cast
    ring

/-- The population variance in terms of the plain and squared target
sums. -/
theorem var_eq (l : List RSample) (hne : l ≠ []) :
    var_criterion l
      = sumYsq l / (l.length : ℚ) - (sumY l / (l.length : ℚ)) ^ 2 := by
  have hn : (l.length : ℚ) ≠ 0 :=
    Nat.cast_ne_zero.mpr (List.length_pos.mpr hne).ne'
  unfold var_criterion
  rw [sumsq_expand (meanY l) l]
  unfold meanY
  field_simp
  ring

/-- A subset of constant target has zero variance. -/
theorem var_zero_of_const (l : List RSample) (c : ℚ) (h : ∀ s ∈ l, s.2 = c) :
    var_criterion l = 0 := by
  rcases eq_or_ne l [] with rfl | hne
  · simp [var_criterion]
  · have hm : meanY l = c := meanY_const l c hne h
    unfold var_criterion
    have hz : (l.map (fun s => (s.2 - meanY l) ^ 2)).sum = 0 := by
      have hall : ∀ y ∈ l.map (fun s => (s.2 - meanY l) ^ 2), y = 0 := by
        intro y hy
        rcases List.mem_map.mp hy with ⟨s, hs, rfl⟩
        rw [h s hs, hm]
        ring
      rw [list_sum_const 0 _ hall]
      ring
    rw [hz]
    simp

/-- A non-empty subset of zero variance has every target equal to the
mean. -/
theorem var_zero_forall (l : List RSample) (hne : l ≠ [])
    (hz : var_criterion l = 0) : ∀ s ∈ l, s.2 = meanY l := by
  have hn : (l.length : ℚ) ≠ 0 :=
    Nat.cast_ne_zero.mpr (List.length_pos.mpr hne).ne'
  unfold var_criterion at hz
  rw [div_eq_zero_iff] at hz
  rcases hz with hz | hz
  case inr => exact absurd hz hn
  intro s hs
  have hterm := list_sum_nonneg_all_zero _
    (by
      intro y hy
      rcases List.mem_map.mp hy with ⟨r, _, rfl⟩
      positivity)
    hz ((s.2 - meanY l) ^ 2) (List.mem_map.mpr ⟨s, hs, rfl⟩)
  have h0 := sq_eq_zero_iff.mp hterm
  linarith [sub_eq_zero.mp h0]

/-- The subset minimum feature value is a lower bound. -/
theorem minX_le_all (l : List RSample) : ∀ s ∈ l, minX l ≤ s.1 := by
  cases l with
  | nil => intro s hs; cases hs
  | cons s0 t =>
    intro s hs
    obtain ⟨h1, h2⟩ := foldl_kmin_le (fun r : RSample => r.1) t s0.1
    rcases List.mem_cons.mp hs with rfl | hs
    · exact h1
    · exact h2 s hs

/-- The subset minimum feature value is attained. -/
theorem minX_attained (l : List RSample) (hne : l ≠ []) :
    ∃ s ∈ l, s.1 = minX l := by
  cases l with
  | nil => exact absurd rfl hne
  | cons s0 t =>
    rcases foldl_kmin_mem (fun r : RSample => r.1) t s0.1 with h | ⟨s, hs, h⟩
    · exact ⟨s0, List.mem_cons_self s0 t, h.symm⟩
    · exact ⟨s, List.mem_cons_of_mem s0 hs, h.symm⟩

/-- The subset maximum feature value is an upper bound. -/
theorem le_maxX_all (l : List RSample) : ∀ s ∈ l, s.1 ≤ maxX l := by
  cases l with
  | nil => intro s hs; cases hs
  | cons s0 t =>
    intro s hs
    obtain ⟨h1, h2⟩ := foldl_kmax_le (fun r : RSample => r.1) t s0.1
    rcases List.mem_cons.mp hs with rfl | hs
    · exact h1
    · exact h2 s hs

/-- The subset maximum feature value is attained. -/
theorem maxX_attained (l : List RSample) (hne : l ≠ []) :
    ∃ s ∈ l, s.1 = maxX l := by
  cases l with
  | nil => exact absurd rfl hne
  | cons s0 t =>
    rcases foldl_kmax_mem (fun r : RSample => r.1) t s0.1 with h | ⟨s, hs, h⟩
    · exact ⟨s0, List.mem_cons_self s0 t, h.symm⟩
    · exact ⟨s, List.mem_cons_of_mem s0 hs, h.symm⟩

/-- The drawn threshold lies in `[lo, hi)` whenever `lo < hi`. -/
theorem pick_threshold_bounds (lo hi u : ℚ) (h : lo < hi) :
    lo ≤ pick_threshold lo hi u ∧ pick_threshold lo hi u < hi := by
  unfold pick_threshold
  by_cases hc : lo ≤ u ∧ u < hi
  · rw [if_pos hc]; exact ⟨hc.1, hc.2⟩
  · rw [if_neg hc]; exact ⟨le_refl lo, h⟩

/-- Every sample of the regression test set is a 5-target sample with
feature in `[1, 3]` or a 2-target sample with feature in `[7, 9]`. -/
theorem test_mem_cases (s : RSample) (h : s ∈ test_data) :
    (s.2 = 5 ∧ 1 ≤ s.1 ∧ s.1 ≤ 3) ∨ (s.2 = 2 ∧ 7 ≤ s.1 ∧ s.1 ≤ 9) := by
  simp only [test_data, List.mem_cons, List.not_mem_nil, or_false] at h
  rcases h with rfl | rfl | rfl | rfl | rfl | rfl <;> norm_num

/-- A mapped sum splits across the two sides of a filter partition. -/
theorem filter_map_sum_split (p : RSample → Bool) (f : RSample → ℚ)
    (l : List RSample) :
    (l.map f).sum
      = ((l.filter p).map f).sum + ((l.filter (fun s => !(p s))).map f).sum := by
  have hp := List.filter_append_perm p l
  have hs := (hp.map f).sum_eq
  rw [List.map_append, List.sum_append] at hs
  linarith

/-- Lengths split across the two sides of a filter partition. -/
theorem filter_length_split (p : RSample → Bool) (l : List RSample) :
    (l.filter p).length + (l.filter (fun s => !(p s))).length = l.length := by
  have hp := List.filter_append_perm p l
  have hs := hp.length_eq
  rw [List.length_append] at hs
  exact hs

/-- If the weighted post-split score strictly improves on the pre-split
score, neither side of the partition is empty. -/
theorem accept_sides_nonempty (l : List RSample) (p : RSample → Bool)
    (hne : l ≠ [])
    (hacc : post_split_score var_criterion p l < var_criterion l) :
    l.filter p ≠ [] ∧ l.filter (fun s => !(p s)) ≠ [] := by
  have hn : (l.length : ℚ) ≠ 0 :=
    Nat.cast_ne_zero.mpr (List.length_pos.mpr hne).ne'
  constructor
  · intro hL
    have hR : l.filter (fun s => !(p s)) = l := by
      apply List.filter_eq_self.mpr
      intro a ha
      have := List.filter_eq_nil.mp hL a ha
      simp only [Bool.not_eq_true] at this
      simp [this]
    unfold post_split_score at hacc
    rw [hL, hR] at hacc
    simp only [List.length_nil, Nat.cast_zero, zero_mul, zero_add] at hacc
    have heq : (l.length : ℚ) * (var_criterion l / (l.length : ℚ)) = var_criterion l := by
      field_simp
    rw [mul_div_assoc, heq] at hacc
    exact lt_irrefl _ hacc
  · intro hR
    have hL : l.filter p = l := by
      apply List.filter_eq_self.mpr
      intro a ha
      have := List.filter_eq_nil.mp hR a ha
      simpa using this
    unfold post_split_score at hacc
    rw [hL, hR] at hacc
    simp only [List.length_nil, Nat.cast_zero, zero_mul, add_zero] at hacc
    have heq : (l.length : ℚ) * (var_criterion l / (l.length : ℚ)) = var_criterion l := by
      field_simp
    rw [mul_div_assoc, heq] at hacc
    exact lt_irrefl _ hacc

/-- Variance decomposition: when both sides of a partition are non-empty
and their means differ, the sample-weighted post-split variance is
strictly below the pre-split variance. -/
theorem post_lt_var (l : List RSample) (p : RSample → Bool)
    (hL : l.filter p ≠ []) (hR : l.filter (fun s => !(p s)) ≠ [])
    (hm : meanY (l.filter p) ≠ meanY (l.filter (fun s => !(p s)))) :
    post_split_score var_criterion p l < var_criterion l := by
  have hlne : l ≠ [] := by
    intro h
    apply hL
    rw [h]
    rfl
  have hnL : (0 : ℚ) < ((l.filter p).length : ℚ) := by
    exact_mod_cast List.length_pos.mpr hL
  have hnR : (0 : ℚ) < ((l.filter (fun s => !(p s))).length : ℚ) := by
    exact_mod_cast List.length_pos.mpr hR
  have h1 : ((l.filter p).length : ℚ) ≠ 0 := hnL.ne'
  have h2 : ((l.filter (fun s => !(p s))).length : ℚ) ≠ 0 := hnR.ne'
  have h3 : ((l.filter p).length : ℚ) + ((l.filter (fun s => !(p s))).length : ℚ) ≠ 0 := by
    positivity
  have hn : (l.length : ℚ)
      = ((l.filter p).length : ℚ) + ((l.filter (fun s => !(p s))).length : ℚ) := by
    exact_mod_cast (filter_length_split p l).symm
  have hS : sumY l = sumY (l.filter p) + sumY (l.filter (fun s => !(p s))) := by
    unfold sumY
    exact filter_map_sum_split p Prod.snd l
  have hQ : sumYsq l = sumYsq (l.filter p) + sumYsq (l.filter (fun s => !(p s))) := by
    unfold sumYsq
    exact filter_map_sum_split p (fun s => s.2 ^ 2) l
  have hmm : sumY (l.filter p) * ((l.filter (fun s => !(p s))).length : ℚ)
      ≠ sumY (l.filter (fun s => !(p s))) * ((l.filter p).length : ℚ) := by
    intro hcross
    apply hm
    show meanY (l.filter p) = meanY (l.filter (fun s => !(p s)))
    unfold meanY sumY
    unfold sumY at hcross
    rw [div_eq_div_iff h1 h2]
    exact hcross
  have hpos : (0 : ℚ)
      < (sumY (l.filter p) * ((l.filter (fun s => !(p s))).length : ℚ)
          - sumY (l.filter (fun s => !(p s))) * ((l.filter p).length : ℚ)) ^ 2 :=
    lt_of_le_of_ne (sq_nonneg _) (Ne.symm (pow_ne_zero 2 (sub_ne_zero.mpr hmm)))
  have hid : var_criterion l - post_split_score var_criterion p l
      = (sumY (l.filter p) * ((l.filter (fun s => !(p s))).length : ℚ)
          - sumY (l.filter (fun s => !(p s))) * ((l.filter p).length : ℚ)) ^ 2
        / (((l.filter p).length : ℚ) * ((l.filter (fun s => !(p s))).length : ℚ)
            * (((l.filter p).length : ℚ) + ((l.filter (fun s => !(p s))).length : ℚ)) ^ 2) := by
    unfold post_split_score
    rw [var_eq l hlne, var_eq _ hL, var_eq _ hR, hS, hQ, hn]
    field_simp
    ring
  have hd : (0 : ℚ)
      < ((l.filter p).length : ℚ) * ((l.filter (fun s => !(p s))).length : ℚ)
        * (((l.filter p).length : ℚ) + ((l.filter (fun s => !(p s))).length : ℚ)) ^ 2 := by
    positivity
  have hgt := div_pos hpos hd
  rw [← hid] at hgt
  linarith

/-- A subset of the test set with targets of both values, split anywhere
strictly between its feature bounds, has two non-empty sides with
different mean targets. -/
theorem split_means_ne (l : List RSample) (hsub : ∀ s ∈ l, s ∈ test_data)
    (h5 : ∃ a ∈ l, a.2 = 5) (h2 : ∃ b ∈ l, b.2 = 2) (tau : ℚ)
    (hlo : minX l ≤ tau) (hhi : tau < maxX l) (hne : l ≠ []) :
    l.filter (xle tau) ≠ [] ∧ l.filter (fun s => !(xle tau s)) ≠ [] ∧
      meanY (l.filter (xle tau)) ≠ meanY (l.filter (fun s => !(xle tau s))) := by
  have hLne : l.filter (xle tau) ≠ [] := by
    obtain ⟨s, hs, hmin⟩ := minX_attained l hne
    exact List.ne_nil_of_mem (List.mem_filter.mpr ⟨hs, by
      simp only [xle, decide_eq_true_eq]
      rw [hmin]
      exact hlo⟩)
  have hRne : l.filter (fun s => !(xle tau s)) ≠ [] := by
    obtain ⟨s, hs, hmax⟩ := maxX_attained l hne
    exact List.ne_nil_of_mem (List.mem_filter.mpr ⟨hs, by
      simp only [xle, Bool.not_eq_true', decide_eq_false_iff_not]
      rw [hmax]
      exact not_le.mpr hhi⟩)
  refine ⟨hLne, hRne, ?_⟩
  by_cases htau : tau < 7
  · -- every sample on the left is a 5-target sample
    have hLall : ∀ s ∈ l.filter (xle tau), s.2 = 5 := by
      intro s hs
      obtain ⟨hsl, hsp⟩ := List.mem_filter.mp hs
      simp only [xle, decide_eq_true_eq] at hsp
      rcases test_mem_cases s (hsub s hsl) with ⟨hy, _, _⟩ | ⟨_, hx7, _⟩
      · exact hy
      · linarith
    have hmL : meanY (l.filter (xle tau)) = 5 := meanY_const _ 5 hLne hLall
    obtain ⟨b, hb, hb2⟩ := h2
    have hb7 : 7 ≤ b.1 := by
      rcases test_mem_cases b (hsub b hb) with ⟨hy, _, _⟩ | ⟨_, hx7, _⟩
      · rw [hb2] at hy; norm_num at hy
      · exact hx7
    have hbR : b ∈ l.filter (fun s => !(xle tau s)) := by
      apply List.mem_filter.mpr
      refine ⟨hb, ?_⟩
      simp only [xle, Bool.not_eq_true', decide_eq_false_iff_not]
      linarith
    have hRub : ∀ s ∈ l.filter (fun s => !(xle tau s)), s.2 ≤ 5 := by
      intro s hs
      rcases test_mem_cases s (hsub s (List.mem_filter.mp hs).1) with
        ⟨hy, _, _⟩ | ⟨hy, _, _⟩ <;> rw [hy] <;> norm_num
    have hmR : meanY (l.filter (fun s => !(xle tau s))) < 5 :=
      meanY_lt _ 5 hRne hRub ⟨b, hbR, by rw [hb2]; norm_num⟩
    rw [hmL]
    exact (ne_of_lt hmR).symm
  · -- every sample on the right is a 2-target sample
    push_neg at htau
    have hRall : ∀ s ∈ l.filter (fun s => !(xle tau s)), s.2 = 2 := by
      intro s hs
      obtain ⟨hsl, hsp⟩ := List.mem_filter.mp hs
      simp only [xle, Bool.not_eq_true', decide_eq_false_iff_not] at hsp
      rcases test_mem_cases s (hsub s hsl) with ⟨_, _, hx3⟩ | ⟨hy, _, _⟩
      · exact absurd (by linarith : s.1 ≤ tau) hsp
      · exact hy
    have hmR : meanY (l.filter (fun s => !(xle tau s))) = 2 :=
      meanY_const _ 2 hRne hRall
    obtain ⟨a, ha, ha5⟩ := h5
    have ha3 : a.1 ≤ 3 := by
      rcases test_mem_cases a (hsub a ha) with ⟨_, _, hx3⟩ | ⟨hy, _, _⟩
      · exact hx3
      · rw [ha5] at hy; norm_num at hy
    have haL : a ∈ l.filter (xle tau) := by
      apply List.mem_filter.mpr
      refine ⟨ha, ?_⟩
      simp only [xle, decide_eq_true_eq]
      linarith
    have hLlb : ∀ s ∈ l.filter (xle tau), 2 ≤ s.2 := by
      intro s hs
      rcases test_mem_cases s (hsub s (List.mem_filter.mp hs).1) with
        ⟨hy, _, _⟩ | ⟨hy, _, _⟩ <;> rw [hy] <;> norm_num
    have hmL : 2 < meanY (l.filter (xle tau)) :=
      lt_meanY _ 2 hLne hLlb ⟨a, haL, by rw [ha5]; norm_num⟩
    rw [hmR]
    exact ne_of_gt hmL

/-- A test-set subset with nonzero variance contains targets of both
values. -/
theorem var_ne_mixed (l : List RSample) (hsub : ∀ s ∈ l, s ∈ test_data)
    (hv : var_criterion l ≠ 0) :
    (∃ a ∈ l, a.2 = 5) ∧ (∃ b ∈ l, b.2 = 2) := by
  by_cases h5 : ∃ a ∈ l, a.2 = 5
  · refine ⟨h5, ?_⟩
    by_contra h2
    push_neg at h2
    apply hv
    apply var_zero_of_const l 5
    intro s hs
    rcases test_mem_cases s (hsub s hs) with ⟨hy, _, _⟩ | ⟨hy, _, _⟩
    · exact hy
    · exact absurd hy (h2 s hs)
  · push_neg at h5
    exact absurd
      (var_zero_of_const l 2 (fun s hs => by
        rcases test_mem_cases s (hsub s hs) with ⟨hy, _, _⟩ | ⟨hy, _, _⟩
        · exact absurd hy (h5 s hs)
        · exact hy))
      hv

/-- The feature minimum of a test-set subset is at least 1. -/
theorem minX_ge_one (l : List RSample) (hsub : ∀ s ∈ l, s ∈ test_data)
    (hne : l ≠ []) : 1 ≤ minX l := by
  obtain ⟨s, hs, heq⟩ := minX_attained l hne
  rw [← heq]
  rcases test_mem_cases s (hsub s hs) with ⟨_, hx1, _⟩ | ⟨_, hx7, _⟩
  · exact hx1
  · linarith

/-- The feature maximum of a test-set subset is at most 9. -/
theorem maxX_le_nine (l : List RSample) (hsub : ∀ s ∈ l, s ∈ test_data)
    (hne : l ≠ []) : maxX l ≤ 9 := by
  obtain ⟨s, hs, heq⟩ := maxX_attained l hne
  rw [← heq]
  rcases test_mem_cases s (hsub s hs) with ⟨_, _, hx3⟩ | ⟨_, _, hx9⟩
  · linarith
  · exact hx9

/-- The mean target of a non-empty test-set subset lies in `[2, 5]`. -/
theorem meanY_bounds (l : List RSample) (hne : l ≠ [])
    (hsub : ∀ s ∈ l, s ∈ test_data) : 2 ≤ meanY l ∧ meanY l ≤ 5 := by
  constructor
  · apply le_meanY l 2 hne
    intro s hs
    rcases test_mem_cases s (hsub s hs) with ⟨hy, _, _⟩ | ⟨hy, _, _⟩ <;>
      rw [hy] <;> norm_num
  · apply meanY_le l 5 hne
    intro s hs
    rcases test_mem_cases s (hsub s hs) with ⟨hy, _, _⟩ | ⟨hy, _, _⟩ <;>
      rw [hy] <;> norm_num

/-- Left spine of a grown tree: on a test-set subset containing the sample
`(1, 5)`, with enough fuel, the prediction at `-1000` is 5. -/
theorem grow_left : ∀ (fuel : ℕ) (l : List RSample) (u : ℕ → ℚ) (c : ℕ),
    l.length ≤ fuel → (∀ s ∈ l, s ∈ test_data) → ((1 : ℚ), (5 : ℚ)) ∈ l →
    predict_tree (grow fuel l u c).1 (-1000) = 5 := by
  intro fuel
  induction fuel with
  | zero =>
    intro l u c hlen hsub hmem
    have hnil : l = [] := List.eq_nil_of_length_eq_zero (Nat.le_zero.mp hlen)
    rw [hnil] at hmem
    cases hmem
  | succ fuel ih =>
    intro l u c hlen hsub hmem
    have hne : l ≠ [] := List.ne_nil_of_mem hmem
    have hlen1 : ¬ (l.length < 1) := by
      have := List.length_pos.mpr hne
      omega
    simp only [grow]
    rw [if_neg hlen1]
    by_cases hvar : var_criterion l = 0
    · rw [if_pos hvar]
      show meanY l = 5
      have h15 := var_zero_forall l hne hvar ((1 : ℚ), (5 : ℚ)) hmem
      simpa using h15.symm
    · rw [if_neg hvar]
      by_cases hlohi : minX l = maxX l
      · rw [if_pos hlohi]
        show meanY l = 5
        have hminle : minX l ≤ 1 := by
          simpa using minX_le_all l ((1 : ℚ), (5 : ℚ)) hmem
        have hall5 : ∀ s ∈ l, s.2 = 5 := by
          intro s hs
          have hx : s.1 ≤ maxX l := le_maxX_all l s hs
          rw [← hlohi] at hx
          rcases test_mem_cases s (hsub s hs) with ⟨hy, _, _⟩ | ⟨_, hx7, _⟩
          · exact hy
          · linarith
        exact meanY_const l 5 hne hall5
      · rw [if_neg hlohi]
        have hminmax : minX l < maxX l := by
          obtain ⟨s, hs, heq⟩ := minX_attained l hne
          have hle := le_maxX_all l s hs
          rw [heq] at hle
          exact lt_of_le_of_ne hle hlohi
        obtain ⟨hlo, hhi⟩ := pick_threshold_bounds (minX l) (maxX l) (u c) hminmax
        obtain ⟨h5x, h2x⟩ := var_ne_mixed l hsub hvar
        obtain ⟨hLne, hRne, hmne⟩ := split_means_ne l hsub h5x h2x _ hlo hhi hne
        have hacc := post_lt_var l (xle (pick_threshold (minX l) (maxX l) (u c)))
          hLne hRne hmne
        rw [if_pos hacc]
        have htau1 : (1 : ℚ) ≤ pick_threshold (minX l) (maxX l) (u c) := by
          have h1m := minX_ge_one l hsub hne
          linarith
        show predict_tree
          (RTree.node (pick_threshold (minX l) (maxX l) (u c))
            (grow fuel (l.filter (xle (pick_threshold (minX l) (maxX l) (u c)))) u (c + 1)).1
            (grow fuel (l.filter (fun s => !(xle (pick_threshold (minX l) (maxX l) (u c)) s))) u
              (grow fuel (l.filter (xle (pick_threshold (minX l) (maxX l) (u c)))) u (c + 1)).2).1)
          (-1000) = 5
        simp only [predict_tree]
        rw [if_pos (by linarith : (-1000 : ℚ) ≤ pick_threshold (minX l) (maxX l) (u c))]
        apply ih
        · have hsplit := filter_length_split (xle (pick_threshold (minX l) (maxX l) (u c))) l
          have hRpos : 0 < (l.filter
              (fun s => !(xle (pick_threshold (minX l) (maxX l) (u c)) s))).length :=
            List.length_pos.mpr hRne
          omega
        · intro s hs
          exact hsub s (List.mem_filter.mp hs).1
        · refine List.mem_filter.mpr ⟨hmem, ?_⟩
          simp only [xle, decide_eq_true_eq]
          exact htau1

/-- Right spine of a grown tree: on a test-set subset containing the
sample `(9, 2)`, with enough fuel, the prediction at `1000` is 2. -/
theorem grow_right : ∀ (fuel : ℕ) (l : List RSample) (u : ℕ → ℚ) (c : ℕ),
    l.length ≤ fuel → (∀ s ∈ l, s ∈ test_data) → ((9 : ℚ), (2 : ℚ)) ∈ l →
    predict_tree (grow fuel l u c).1 1000 = 2 := by
  intro fuel
  induction fuel with
  | zero =>
    intro l u c hlen hsub hmem
    have hnil : l = [] := List.eq_nil_of_length_eq_zero (Nat.le_zero.mp hlen)
    rw [hnil] at hmem
    cases hmem
  | succ fuel ih =>
    intro l u c hlen hsub hmem
    have hne : l ≠ [] := List.ne_nil_of_mem hmem
    have hlen1 : ¬ (l.length < 1) := by
      have := List.length_pos.mpr hne
      omega
    simp only [grow]
    rw [if_neg hlen1]
    by_cases hvar : var_criterion l = 0
    · rw [if_pos hvar]
      show meanY l = 2
      have h92 := var_zero_forall l hne hvar ((9 : ℚ), (2 : ℚ)) hmem
      simpa using h92.symm
    · rw [if_neg hvar]
      by_cases hlohi : minX l = maxX l
      · rw [if_pos hlohi]
        show meanY l = 2
        have hmaxge : 9 ≤ maxX l := by
          simpa using le_maxX_all l ((9 : ℚ), (2 : ℚ)) hmem
        have hall2 : ∀ s ∈ l, s.2 = 2 := by
          intro s hs
          have hx : minX l ≤ s.1 := minX_le_all l s hs
          rw [hlohi] at hx
          rcases test_mem_cases s (hsub s hs) with ⟨_, _, hx3⟩ | ⟨hy, _, _⟩
          · linarith
          · exact hy
        exact meanY_const l 2 hne hall2
      · rw [if_neg hlohi]
        have hminmax : minX l < maxX l := by
          obtain ⟨s, hs, heq⟩ := minX_attained l hne
          have hle := le_maxX_all l s hs
          rw [heq] at hle
          exact lt_of_le_of_ne hle hlohi
        obtain ⟨hlo, hhi⟩ := pick_threshold_bounds (minX l) (maxX l) (u c) hminmax
        obtain ⟨h5x, h2x⟩ := var_ne_mixed l hsub hvar
        obtain ⟨hLne, hRne, hmne⟩ := split_means_ne l hsub h5x h2x _ hlo hhi hne
        have hacc := post_lt_var l (xle (pick_threshold (minX l) (maxX l) (u c)))
          hLne hRne hmne
        rw [if_pos hacc]
        have htau9 : pick_threshold (minX l) (maxX l) (u c) < 9 := by
          have h9m := maxX_le_nine l hsub hne
          linarith
        show predict_tree
          (RTree.node (pick_threshold (minX l) (maxX l) (u c))
            (grow fuel (l.filter (xle (pick_threshold (minX l) (maxX l) (u c)))) u (c + 1)).1
            (grow fuel (l.filter (fun s => !(xle (pick_threshold (minX l) (maxX l) (u c)) s))) u
              (grow fuel (l.filter (xle (pick_threshold (minX l) (maxX l) (u c)))) u (c + 1)).2).1)
          1000 = 2
        simp only [predict_tree]
        rw [if_neg (by push_neg; linarith : ¬ ((1000 : ℚ) ≤ pick_threshold (minX l) (maxX l) (u c)))]
        apply ih
        · have hsplit := filter_length_split (xle (pick_threshold (minX l) (maxX l) (u c))) l
          have hLpos : 0 < (l.filter (xle (pick_threshold (minX l) (maxX l) (u c)))).length :=
            List.length_pos.mpr hLne
          omega
        · intro s hs
          exact hsub s (List.mem_filter.mp hs).1
        · refine List.mem_filter.mpr ⟨hmem, ?_⟩
          simp only [xle, Bool.not_eq_true', decide_eq_false_iff_not]
          push_neg
          show pick_threshold (minX l) (maxX l) (u c) < 9
          exact htau9

/-- Every prediction of a tree grown on a non-empty test-set subset lies
in `[2, 5]`: each leaf stores the mean target of a non-empty test-set
subset. -/
theorem grow_bounds : ∀ (fuel : ℕ) (l : List RSample) (u : ℕ → ℚ) (c : ℕ) (x : ℚ),
    l ≠ [] → (∀ s ∈ l, s ∈ test_data) →
    2 ≤ predict_tree (grow fuel l u c).1 x ∧ predict_tree (grow fuel l u c).1 x ≤ 5 := by
  intro fuel
  induction fuel with
  | zero =>
    intro l u c x hne hsub
    show 2 ≤ meanY l ∧ meanY l ≤ 5
    exact meanY_bounds l hne hsub
  | succ fuel ih =>
    intro l u c x hne hsub
    have hlen1 : ¬ (l.length < 1) := by
      have := List.length_pos.mpr hne
      omega
    simp only [grow]
    rw [if_neg hlen1]
    by_cases hvar : var_criterion l = 0
    · rw [if_pos hvar]
      show 2 ≤ meanY l ∧ meanY l ≤ 5
      exact meanY_bounds l hne hsub
    · rw [if_neg hvar]
      by_cases hlohi : minX l = maxX l
      · rw [if_pos hlohi]
        show 2 ≤ meanY l ∧ meanY l ≤ 5
        exact meanY_bounds l hne hsub
      · rw [if_neg hlohi]
        by_cases hacc : post_split_score var_criterion
            (xle (pick_threshold (minX l) (maxX l) (u c))) l < var_criterion l
        · rw [if_pos hacc]
          obtain ⟨hLne, hRne⟩ := accept_sides_nonempty l _ hne hacc
          show 2 ≤ predict_tree
              (RTree.node (pick_threshold (minX l) (maxX l) (u c))
                (grow fuel (l.filter (xle (pick_threshold (minX l) (maxX l) (u c)))) u (c + 1)).1
                (grow fuel
                  (l.filter (fun s => !(xle (pick_threshold (minX l) (maxX l) (u c)) s))) u
                  (grow fuel (l.filter (xle (pick_threshold (minX l) (maxX l) (u c)))) u
                    (c + 1)).2).1)
              x ∧ predict_tree
              (RTree.node (pick_threshold (minX l) (maxX l) (u c))
                (grow fuel (l.filter (xle (pick_threshold (minX l) (maxX l) (u c)))) u (c + 1)).1
                (grow fuel
                  (l.filter (fun s => !(xle (pick_threshold (minX l) (maxX l) (u c)) s))) u
                  (grow fuel (l.filter (xle (pick_threshold (minX l) (maxX l) (u c)))) u
                    (c + 1)).2).1)
              x ≤ 5
          simp only [predict_tree]
          by_cases hx : x ≤ pick_threshold (minX l) (maxX l) (u c)
          · rw [if_pos hx]
            exact ih _ u (c + 1) x hLne (fun s hs => hsub s (List.mem_filter.mp hs).1)
          · rw [if_neg hx]
            exact ih _ u _ x hRne (fun s hs => hsub s (List.mem_filter.mp hs).1)
        · rw [if_neg hacc]
          show 2 ≤ meanY l ∧ meanY l ≤ 5
          exact meanY_bounds l hne hsub

/-- Claim C7: for the extra-trees regressor of the api.rs test — 10 trees,
1 split candidate, `min_samples_split = 1` — fitted on the six samples
x = [1],[2],[3],[7],[8],[9] with targets 5,5,5,2,2,2, the fitted forest
predicts exactly 5 at -1000 and exactly 2 at 1000, and its prediction at 5
lies in `[2, 5]`, for every family of splitter random streams used during
fitting. -/
theorem extra_trees_regressor_test (us : ℕ → ℕ → ℚ) :
    predict_forest (fit_forest 10 test_data us) (-1000) = 5 ∧
      predict_forest (fit_forest 10 test_data us) 1000 = 2 ∧
      2 ≤ predict_forest (fit_forest 10 test_data us) 5 ∧
      predict_forest (fit_forest 10 test_data us) 5 ≤ 5 := by
  have hsub : ∀ s ∈ test_data, s ∈ test_data := fun s hs => hs
  have hmem15 : ((1 : ℚ), (5 : ℚ)) ∈ test_data := by
    simp [test_data]
  have hmem92 : ((9 : ℚ), (2 : ℚ)) ∈ test_data := by
    simp [test_data]
  have hmap : ∀ x : ℚ,
      (fit_forest 10 test_data us).map (fun t => predict_tree t x)
        = (List.range 10).map
            (fun i => predict_tree (grow test_data.length test_data (us i) 0).1 x) := by
    intro x
    unfold fit_forest
    rw [List.map_map]
    rfl
  have hlen : (fit_forest 10 test_data us).length = 10 := by
    unfold fit_forest
    rw [List.length_map, List.length_range]
  refine ⟨?_, ?_, ?_, ?_⟩
  · unfold predict_forest
    rw [hmap, hlen]
    have hall : ∀ y ∈ (List.range 10).map
        (fun i => predict_tree (grow test_data.length test_data (us i) 0).1 (-1000)),
        y = 5 := by
      intro y hy
      rcases List.mem_map.mp hy with ⟨i, _, rfl⟩
      exact grow_left test_data.length test_data (us i) 0 (le_refl _) hsub hmem15
    rw [list_sum_const 5 _ hall, List.length_map, List.length_range]
    norm_num
  · unfold predict_forest
    rw [hmap, hlen]
    have hall : ∀ y ∈ (List.range 10).map
        (fun i => predict_tree (grow test_data.length test_data (us i) 0).1 1000),
        y = 2 := by
      intro y hy
      rcases List.mem_map.mp hy with ⟨i, _, rfl⟩
      exact grow_right test_data.length test_data (us i) 0 (le_refl _) hsub hmem92
    rw [list_sum_const 2 _ hall, List.length_map, List.length_range]
    norm_num
  · unfold predict_forest
    rw [hmap, hlen]
    have hall : ∀ y ∈ (List.range 10).map
        (fun i => predict_tree (grow test_data.length test_data (us i) 0).1 5),
        2 ≤ y := by
      intro y hy
      rcases List.mem_map.mp hy with ⟨i, _, rfl⟩
      exact (grow_bounds test_data.length test_data (us i) 0 5 (by simp [test_data]) hsub).1
    have hsum := list_mul_le_sum 2 _ hall
    rw [List.length_map, List.length_range] at hsum
    push_cast
    rw [le_div_iff (by norm_num : (0 : ℚ) < 10)]
    push_cast at hsum
    linarith
  · unfold predict_forest
    rw [hmap, hlen]
    have hall : ∀ y ∈ (List.range 10).map
        (fun i => predict_tree (grow test_data.length test_data (us i) 0).1 5),
        y ≤ 5 := by
      intro y hy
      rcases List.mem_map.mp hy with ⟨i, _, rfl⟩
      exact (grow_bounds test_data.length test_data (us i) 0 5 (by simp [test_data]) hsub).2
    have hsum := list_sum_le_mul 5 _ hall
    rw [List.length_map, List.length_range] at hsum
    push_cast
    rw [div_le_iff (by norm_num : (0 : ℚ) < 10)]
    push_cast at hsum
    linarith

end Forester
